import Mathlib

/-!
Verification of the top-keywords MapReduce job (`src/movies/job.py`).

The job computes, per genre, the K most frequent title words:

* `mapper_csv` reads records and yields `((word, genre), 1)` for every genre
  label of a record and every word of its preprocessed title;
* `combiner_sum` sums the counts sharing a `(word, genre)` key inside one
  worker's output;
* `reducer` sums all partial counts of a `(word, genre)` key and re-keys the
  result by genre with value `(word, total_count)`;
* `reducer_sort` sorts a genre's `(word, count)` pairs by count descending
  (Python's `sorted` is stable) and keeps the slice `[:maxWords]`.

The MapReduce shuffle is modelled by `groupByKey`: all values carrying the
same key are delivered together to one consumer.  The order in which distinct
key groups are listed (first occurrence here, sorted keys in the real
framework) is irrelevant to every property proved below, which only concern
per-key or per-genre contents.
-/

namespace MapReduceJobs

section Grouping

variable {κ : Type} {β : Type} [DecidableEq κ]

/-- Fuel-driven worker for `uniqKeys`; the fuel is only there to make the
recursion structural, any fuel at least the length of the list gives the
same value. -/
def uniqKeysAux : Nat → List κ → List κ
  | _, [] => []
  | Nat.zero, _ :: _ => []
  | Nat.succ n, k :: t => k :: uniqKeysAux n (t.filter (fun x => x ≠ k))

/-- Keys of a list in order of first occurrence, each listed once. -/
def uniqKeys (l : List κ) : List κ :=
  uniqKeysAux l.length l

theorem uniqKeysAux_eq_of_le : (n : Nat) → (m : Nat) → (l : List κ) →
    l.length ≤ n → l.length ≤ m → uniqKeysAux n l = uniqKeysAux m l
  | n, m, [], _, _ => by cases n <;> cases m <;> rfl
  | Nat.zero, _, k :: t, hn, _ => by simp at hn
  | Nat.succ _, Nat.zero, k :: t, _, hm => by simp at hm
  | Nat.succ n, Nat.succ m, k :: t, hn, hm => by
    have hfn : (t.filter (fun x => x ≠ k)).length ≤ n :=
      Nat.le_trans (List.length_filter_le _ _) (Nat.le_of_succ_le_succ hn)
    have hfm : (t.filter (fun x => x ≠ k)).length ≤ m :=
      Nat.le_trans (List.length_filter_le _ _) (Nat.le_of_succ_le_succ hm)
    rw [uniqKeysAux, uniqKeysAux,
      uniqKeysAux_eq_of_le n m (t.filter (fun x => x ≠ k)) hfn hfm]

/-- All values of the pairs of `l` whose key is `k`, in list order: the
complete collection of partial values the shuffle routes to the consumer of
key `k`. -/
def valuesFor (k : κ) (l : List (κ × β)) : List β :=
  (l.filter (fun p => p.1 = k)).map Prod.snd

/-- The shuffle/sort boundary: group a stream of key-value pairs by key, so
that each distinct key appears once together with every value emitted for
it. -/
def groupByKey (l : List (κ × β)) : List (κ × List β) :=
  (uniqKeys (l.map Prod.fst)).map (fun k => (k, valuesFor k l))

theorem uniqKeys_nil : uniqKeys ([] : List κ) = [] := rfl

theorem uniqKeys_cons (k : κ) (t : List κ) :
    uniqKeys (k :: t) = k :: uniqKeys (t.filter (fun x => x ≠ k)) := by
  rw [uniqKeys, uniqKeys, List.length_cons, uniqKeysAux,
    uniqKeysAux_eq_of_le t.length _ _ (List.length_filter_le _ _) (Nat.le_refl _)]

theorem mem_uniqKeys (a : κ) : (l : List κ) → (a ∈ uniqKeys l ↔ a ∈ l)
  | [] => by rw [uniqKeys_nil]
  | k :: t => by
    have ih := mem_uniqKeys a (t.filter (fun x => x ≠ k))
    by_cases hak : a = k
    · subst hak
      simp [uniqKeys_cons]
    · simp only [uniqKeys_cons, List.mem_cons, ih, List.mem_filter]
      simp [hak]
termination_by l => l.length
decreasing_by
  simpa using Nat.lt_succ_of_le (List.length_filter_le _ _)

theorem valuesFor_nil (k : κ) : valuesFor k ([] : List (κ × β)) = [] := rfl

theorem valuesFor_cons (k : κ) (p : κ × β) (t : List (κ × β)) :
    valuesFor k (p :: t) =
      if p.1 = k then p.2 :: valuesFor k t else valuesFor k t := by
  by_cases h : p.1 = k <;> simp [valuesFor, List.filter_cons, h]

theorem valuesFor_append (k : κ) (a b : List (κ × β)) :
    valuesFor k (a ++ b) = valuesFor k a ++ valuesFor k b := by
  simp [valuesFor, List.filter_append]

theorem nodup_uniqKeys : (l : List κ) → (uniqKeys l).Nodup
  | [] => by simp [uniqKeys_nil]
  | k :: t => by
    have ih := nodup_uniqKeys (t.filter (fun x => x ≠ k))
    rw [uniqKeys_cons]
    refine List.nodup_cons.mpr ⟨fun hmem => ?_, ih⟩
    have := (mem_uniqKeys k _).mp hmem
    simp [List.mem_filter] at this
termination_by l => l.length
decreasing_by
  simpa using Nat.lt_succ_of_le (List.length_filter_le _ _)

theorem uniqKeys_filter (p : κ → Bool) : (l : List κ) →
    (uniqKeys l).filter p = uniqKeys (l.filter p)
  | [] => by simp [uniqKeys_nil]
  | k :: t => by
    have ih := uniqKeys_filter p (t.filter (fun x => x ≠ k))
    rw [uniqKeys_cons]
    by_cases hk : p k = true
    · rw [List.filter_cons_of_pos hk, ih, List.filter_comm,
        List.filter_cons_of_pos hk, uniqKeys_cons]
    · rw [List.filter_cons_of_neg hk, ih, List.filter_comm,
        List.filter_cons_of_neg hk]
      congr 1
      refine List.filter_eq_self.mpr (fun a ha => ?_)
      have hpa := (List.mem_filter.mp ha).2
      simp only [decide_eq_true_eq]
      intro hak
      rw [hak] at hpa
      exact hk hpa
termination_by l => l.length
decreasing_by
  simpa using Nat.lt_succ_of_le (List.length_filter_le _ _)

theorem uniqKeys_append_congr : (a : List κ) → ∀ (b₁ b₂ : List κ),
    uniqKeys b₁ = uniqKeys b₂ → uniqKeys (a ++ b₁) = uniqKeys (a ++ b₂)
  | [] => fun _ _ h => by simpa using h
  | k :: t => fun b₁ b₂ h => by
    have hb : uniqKeys (b₁.filter (fun x => x ≠ k)) =
        uniqKeys (b₂.filter (fun x => x ≠ k)) := by
      rw [← uniqKeys_filter, ← uniqKeys_filter, h]
    rw [List.cons_append, List.cons_append, uniqKeys_cons, uniqKeys_cons,
      List.filter_append, List.filter_append,
      uniqKeys_append_congr (t.filter (fun x => x ≠ k)) _ _ hb]
termination_by a => a.length
decreasing_by
  simpa using Nat.lt_succ_of_le (List.length_filter_le _ _)

theorem uniqKeys_append_left : (a : List κ) → ∀ (b : List κ),
    uniqKeys (uniqKeys a ++ b) = uniqKeys (a ++ b)
  | [] => fun b => by simp [uniqKeys_nil]
  | k :: t => fun b => by
    rw [uniqKeys_cons, List.cons_append, List.cons_append, uniqKeys_cons,
      uniqKeys_cons, List.filter_append, List.filter_append]
    have hself : (uniqKeys (t.filter (fun x => x ≠ k))).filter (fun x => x ≠ k) =
        uniqKeys (t.filter (fun x => x ≠ k)) := by
      refine List.filter_eq_self.mpr (fun a ha => ?_)
      have := List.mem_filter.mp ((mem_uniqKeys a _).mp ha)
      exact this.2
    rw [hself, uniqKeys_append_left (t.filter (fun x => x ≠ k))]
termination_by a => a.length
decreasing_by
  simpa using Nat.lt_succ_of_le (List.length_filter_le _ _)

theorem uniqKeys_flatten_uniqKeys (ls : List (List κ)) :
    uniqKeys (ls.map uniqKeys).flatten = uniqKeys ls.flatten := by
  induction ls with
  | nil => rfl
  | cons a t ih =>
    rw [List.map_cons, List.flatten_cons, List.flatten_cons,
      uniqKeys_append_left, uniqKeys_append_congr a _ _ ih]

/-- The sum of the values of `l` whose key satisfies `P`. -/
def sumForKeys (P : κ → Bool) (l : List (κ × Nat)) : Nat :=
  ((l.filter (fun p => P p.1)).map Prod.snd).sum

omit [DecidableEq κ] in
theorem sumForKeys_nil (P : κ → Bool) : sumForKeys P ([] : List (κ × Nat)) = 0 := rfl

omit [DecidableEq κ] in
theorem sumForKeys_cons (P : κ → Bool) (p : κ × Nat) (t : List (κ × Nat)) :
    sumForKeys P (p :: t) =
      (if P p.1 = true then p.2 else 0) + sumForKeys P t := by
  by_cases h : P p.1 = true <;> simp [sumForKeys, List.filter_cons, h]

omit [DecidableEq κ] in
theorem sumForKeys_append (P : κ → Bool) (a b : List (κ × Nat)) :
    sumForKeys P (a ++ b) = sumForKeys P a + sumForKeys P b := by
  simp [sumForKeys, List.filter_append]

omit [DecidableEq κ] in
theorem sumForKeys_flatten (P : κ → Bool) (L : List (List (κ × Nat))) :
    sumForKeys P L.flatten = (L.map (sumForKeys P)).sum := by
  induction L with
  | nil => rfl
  | cons a t ih =>
    rw [List.flatten_cons, sumForKeys_append, ih, List.map_cons, List.sum_cons]

theorem sum_map_ite (a : κ) (v : Nat) (l : List κ) :
    (l.map (fun k => if a = k then v else 0)).sum = l.count a * v := by
  induction l with
  | nil => simp
  | cons k t ih =>
    rw [List.map_cons, List.sum_cons, ih, List.count_cons]
    by_cases h : a = k
    · subst h
      simp [Nat.succ_mul, Nat.add_comm]
    · have hko : ¬((k == a) = true) := by simp [beq_iff_eq]; exact fun e => h e.symm
      simp [h, hko]

theorem sum_over_keys (P : κ → Bool) :
    (S : List (κ × Nat)) → ∀ (ks : List κ), ks.Nodup → (∀ p ∈ S, p.1 ∈ ks) →
      ((ks.filter P).map (fun k => (valuesFor k S).sum)).sum = sumForKeys P S
  | [] => fun ks _ _ => by simp [valuesFor_nil, sumForKeys_nil]
  | (k₀, v₀) :: t => fun ks hnd hmem => by
    have hk₀ : k₀ ∈ ks := hmem (k₀, v₀) (List.mem_cons_self _ _)
    have ih := sum_over_keys P t ks hnd (fun p hp => hmem p (List.mem_cons_of_mem _ hp))
    have step : (fun k : κ => (valuesFor k ((k₀, v₀) :: t)).sum)
        = fun k => (if k₀ = k then v₀ else 0) + (valuesFor k t).sum := by
      funext k
      rw [valuesFor_cons]
      by_cases h : k₀ = k <;> simp [h]
    calc ((ks.filter P).map (fun k => (valuesFor k ((k₀, v₀) :: t)).sum)).sum
        = ((ks.filter P).map
            (fun k => (if k₀ = k then v₀ else 0) + (valuesFor k t).sum)).sum := by
          rw [step]
      _ = ((ks.filter P).map (fun k => if k₀ = k then v₀ else 0)).sum
            + ((ks.filter P).map (fun k => (valuesFor k t).sum)).sum :=
          List.sum_map_add
      _ = (ks.filter P).count k₀ * v₀ + sumForKeys P t := by
          rw [sum_map_ite, ih]
      _ = (if P k₀ = true then v₀ else 0) + sumForKeys P t := by
          congr 1
          by_cases hp : P k₀ = true
          · rw [List.count_filter hp, List.count_eq_one_of_mem hnd hk₀]
            simp [hp]
          · have hnmem : k₀ ∉ ks.filter P := fun hc => hp (List.mem_filter.mp hc).2
            rw [List.count_eq_zero.mpr hnmem]
            simp [hp]
      _ = sumForKeys P ((k₀, v₀) :: t) := (sumForKeys_cons P (k₀, v₀) t).symm

theorem sumForKeys_groupByKey (P : κ → Bool) (S : List (κ × Nat)) :
    (((groupByKey S).filter (fun e => P e.1)).map (fun e => e.2.sum)).sum
      = sumForKeys P S := by
  rw [groupByKey, List.filter_map, List.map_map]
  exact sum_over_keys P S (uniqKeys (S.map Prod.fst)) (nodup_uniqKeys _)
    (fun p hp => (mem_uniqKeys _ _).mpr (List.mem_map_of_mem _ hp))

end Grouping

section Splitting

/-- Splits a character list at every character satisfying `p`, keeping empty
segments, exactly like Python's `str.split(sep)` for a one-character
separator: the result always has one more segment than there are separator
occurrences, hence is never empty. -/
def splitOnP (p : Char → Bool) : List Char → List (List Char)
  | [] => [[]]
  | c :: t =>
    if p c then [] :: splitOnP p t
    else
      match splitOnP p t with
      | [] => [[c]]
      | h :: r => (c :: h) :: r

theorem splitOnP_ne_nil (p : Char → Bool) (l : List Char) :
    splitOnP p l ≠ [] := by
  cases l with
  | nil => simp [splitOnP]
  | cons c t =>
    simp only [splitOnP]
    by_cases h : p c = true
    · simp [h]
    · simp only [h, if_neg]
      cases splitOnP p t <;> simp

/-- Python's `str.split()` with no argument: split on whitespace runs and
drop the empty segments. -/
def pySplitWhitespace (s : String) : List String :=
  ((splitOnP (fun c => c.isWhitespace) s.data).map (fun cs => String.mk cs)).filter
    (fun w => w ≠ "")

/-- Python's `lst[:n]` slice for an optional, possibly negative bound `n`:
`None` keeps the whole list, a non-negative `n` keeps the first `n` elements,
and a negative `n` drops the last `-n` elements. -/
def pySlice {α : Type} (n : Option Int) (l : List α) : List α :=
  match n with
  | none => l
  | some i => if 0 ≤ i then l.take i.toNat else l.take (l.length - (-i).toNat)

end Splitting

section Job

/-- One row of the input CSV as the mapper sees it: a `title` cell (possibly
missing, i.e. `none`) and the `genres` cell, a `|`-separated string of genre
labels. -/
structure Record where
  title : Option String
  genres : String
deriving DecidableEq

/-- Modelled from the spec: `util.preprocessing.preprocess_text` is imported
by `job.py` but its source is not part of this repository snapshot.  The spec
describes it as an opaque normalization collaborator ("given raw text,
returns a lowercase/cleaned sequence of tokens") whose failure policy is that
"a record with an empty or missing text field yields zero tokens" and does
not raise.  It is modelled as lowercasing, with a missing field treated as
empty text. -/
def preprocess_text (title : Option String) : String :=
  match title with
  | none => ""
  | some s => ⟨s.data.map Char.toLower⟩

/-- The words of a record's title: `pre.preprocess_text(title)` followed by
Python's `clean_title.split()` (`job.py` lines 26-28). -/
def tokensOf (r : Record) : List String :=
  pySplitWhitespace (preprocess_text r.title)

/-- The genre labels of a record: `data['genres'].split("|")` (`job.py`
line 29).  Splitting keeps empty segments, so the result is never empty. -/
def genresOf (r : Record) : List String :=
  (splitOnP (fun c => c = '|') r.genres.data).map (fun cs => String.mk cs)

/-- The emissions of `mapper_csv` for one row of the CSV: for each genre of
the row and each word of its preprocessed title, the pair `((word, genre), 1)`
(`job.py` lines 30-32, genres in the outer loop). -/
def emitRecord (r : Record) : List ((String × String) × Nat) :=
  (genresOf r).flatMap (fun genre => (tokensOf r).map (fun word => ((word, genre), 1)))

/-- `mapper_csv`: reads the rows of one input CSV (one worker's partition)
and emits the key-value pairs of every row in order (`job.py` lines 16-32). -/
def mapper_csv (rows : List Record) : List ((String × String) × Nat) :=
  rows.flatMap emitRecord

/-- `combiner_sum`: for one `(word, genre)` key and the node-local counts
collected for it, yield the key with the local sum (`job.py` lines 34-43). -/
def combiner_sum (key : String × String) (values : List Nat) :
    List ((String × String) × Nat) :=
  [(key, values.sum)]

/-- One worker's combine phase: the framework groups the worker's mapper
output by key and runs `combiner_sum` on every group. -/
def combinerRun (out : List ((String × String) × Nat)) :
    List ((String × String) × Nat) :=
  (groupByKey out).flatMap (fun e => combiner_sum e.1 e.2)

/-- `reducer` (round 1): for one `(word, genre)` key and all partial counts
received for it, re-key by the genre alone with value
`(word, total_count)` (`job.py` lines 45-55). -/
def reducer (key : String × String) (values : List Nat) :
    List (String × (String × Nat)) :=
  [(key.2, (key.1, values.sum))]

/-- The descending-count order used by `reducer_sort`: `a` may come before
`b` exactly when the count of `b` is at most the count of `a`. -/
def countGe (a b : String × Nat) : Prop := b.2 ≤ a.2

instance : DecidableRel countGe := fun a b => inferInstanceAs (Decidable (b.2 ≤ a.2))

instance : IsTotal (String × Nat) countGe :=
  ⟨fun a b => Nat.le_total b.2 a.2⟩

instance : IsTrans (String × Nat) countGe :=
  ⟨fun _ _ _ hab hbc => Nat.le_trans hbc hab⟩

/-- `sorted(values, key=lambda x: x[1], reverse=True)`: Python's sort is
stable, and `reverse=True` flips comparisons while keeping elements with
equal keys in input order; a stable sort into descending count order is
unique, and insertion sort along `countGe` computes it. -/
def sortDesc (values : List (String × Nat)) : List (String × Nat) :=
  values.insertionSort countGe

/-- `reducer_sort` (round 2): for one genre and all its `(word, count)`
pairs, sort by count descending and emit the Python slice `[:maxWords]` of
the result, each entry re-keyed by the genre (`job.py` lines 57-68). -/
def reducer_sort (maxWords : Option Int) (key : String)
    (values : List (String × Nat)) : List (String × (String × Nat)) :=
  (pySlice maxWords (sortDesc values)).map (fun wc => (key, wc))

/-- From `configure_args` (`job.py` lines 9-14): `--maxWords` is declared
with `type=int` and no default, so when the option is not supplied on the
command line its parsed value is `None`. -/
def maxWordsWhenUnsupplied : Option Int := none

/-- The mapper outputs of all workers, one list per worker partition. -/
def mapperOutputs (workers : List (List Record)) :
    List (List ((String × String) × Nat)) :=
  workers.map mapper_csv

/-- The stream of key-value pairs crossing the first shuffle boundary: each
worker's mapper output, locally combined when `useCombiner` is set, then
concatenated. -/
def shuffled (useCombiner : Bool) (workers : List (List Record)) :
    List ((String × String) × Nat) :=
  (if useCombiner then (mapperOutputs workers).map combinerRun
   else mapperOutputs workers).flatten

/-- The output of the first round: the shuffle groups the stream by its
`(word, genre)` key and the reducer runs once per key. -/
def round1Out (useCombiner : Bool) (workers : List (List Record)) :
    List (String × (String × Nat)) :=
  (groupByKey (shuffled useCombiner workers)).flatMap (fun e => reducer e.1 e.2)

/-- The full two-round pipeline of `steps`: round 1, then a shuffle by genre,
then `reducer_sort` once per genre (`job.py` lines 70-80). -/
def pipeline (useCombiner : Bool) (workers : List (List Record))
    (maxWords : Option Int) : List (String × (String × Nat)) :=
  (groupByKey (round1Out useCombiner workers)).flatMap
    (fun e => reducer_sort maxWords e.1 e.2)

/-- The sum of the `total_count` values that a round-1 output list carries
for one genre. -/
def totalForGenre (genre : String) (out : List (String × (String × Nat))) : Nat :=
  ((out.filter (fun e => e.1 = genre)).map (fun e => e.2.2)).sum

theorem combinerRun_eq_map (o : List ((String × String) × Nat)) :
    combinerRun o = (groupByKey o).map (fun e => (e.1, e.2.sum)) := by
  rw [List.map_eq_flatMap]
  rfl

theorem combinerRun_fst (o : List ((String × String) × Nat)) :
    (combinerRun o).map Prod.fst = uniqKeys (o.map Prod.fst) := by
  rw [combinerRun_eq_map, groupByKey, List.map_map, List.map_map]
  exact List.map_id' _

theorem sumForKeys_combinerRun (P : String × String → Bool)
    (o : List ((String × String) × Nat)) :
    sumForKeys P (combinerRun o) = sumForKeys P o := by
  rw [combinerRun_eq_map]
  have h : sumForKeys P ((groupByKey o).map (fun e => (e.1, e.2.sum)))
      = (((groupByKey o).filter (fun e => P e.1)).map (fun e => e.2.sum)).sum := by
    rw [sumForKeys, List.filter_map, List.map_map]
    rfl
  rw [h, sumForKeys_groupByKey]

theorem shuffled_nil (b : Bool) : shuffled b [] = [] := by
  cases b <;> rfl

theorem shuffled_cons_true (w : List Record) (t : List (List Record)) :
    shuffled true (w :: t) = combinerRun (mapper_csv w) ++ shuffled true t := by
  simp [shuffled, mapperOutputs]

theorem shuffled_cons_false (w : List Record) (t : List (List Record)) :
    shuffled false (w :: t) = mapper_csv w ++ shuffled false t := by
  simp [shuffled, mapperOutputs]

theorem shuffled_fst (ws : List (List Record)) :
    uniqKeys ((shuffled true ws).map Prod.fst)
      = uniqKeys ((shuffled false ws).map Prod.fst) := by
  induction ws with
  | nil => rfl
  | cons w t ih =>
    rw [shuffled_cons_true, shuffled_cons_false, List.map_append,
      List.map_append, combinerRun_fst, uniqKeys_append_left,
      uniqKeys_append_congr _ _ _ ih]

theorem sumForKeys_shuffled (P : String × String → Bool) (ws : List (List Record)) :
    sumForKeys P (shuffled true ws) = sumForKeys P (shuffled false ws) := by
  induction ws with
  | nil => rfl
  | cons w t ih =>
    rw [shuffled_cons_true, shuffled_cons_false, sumForKeys_append,
      sumForKeys_append, sumForKeys_combinerRun, ih]

theorem valuesFor_sum_eq_sumForKeys (k : String × String)
    (l : List ((String × String) × Nat)) :
    (valuesFor k l).sum = sumForKeys (fun x => x = k) l := rfl

theorem valuesFor_sum_shuffled (k : String × String) (ws : List (List Record)) :
    (valuesFor k (shuffled true ws)).sum = (valuesFor k (shuffled false ws)).sum := by
  rw [valuesFor_sum_eq_sumForKeys, valuesFor_sum_eq_sumForKeys, sumForKeys_shuffled]

theorem round1Out_eq_map (b : Bool) (ws : List (List Record)) :
    round1Out b ws = (uniqKeys ((shuffled b ws).map Prod.fst)).map
      (fun k => (k.2, (k.1, (valuesFor k (shuffled b ws)).sum))) := by
  rw [round1Out, groupByKey, List.flatMap_map,
    List.map_eq_flatMap (fun k : String × String =>
      (k.2, (k.1, (valuesFor k (shuffled b ws)).sum)))
      (uniqKeys ((shuffled b ws).map Prod.fst))]
  rfl

theorem round1Out_combiner_eq (ws : List (List Record)) :
    round1Out true ws = round1Out false ws := by
  rw [round1Out_eq_map, round1Out_eq_map, shuffled_fst]
  congr 1
  funext k
  rw [valuesFor_sum_shuffled]

theorem sum_map_constant {α : Type} (l : List α) (c : Nat) :
    (l.map (fun _ => c)).sum = l.length * c := by
  induction l with
  | nil => simp
  | cons a t ih =>
    rw [List.map_cons, List.sum_cons, ih, List.length_cons, Nat.succ_mul,
      Nat.add_comm]

theorem shuffled_false_eq (ws : List (List Record)) :
    shuffled false ws = (ws.map mapper_csv).flatten := by
  simp [shuffled, mapperOutputs]

theorem sum_map_flatten {α : Type} (f : α → Nat) (L : List (List α)) :
    (L.flatten.map f).sum = (L.map (fun w => (w.map f).sum)).sum := by
  rw [List.map_flatten, List.sum_flatten, List.map_map]
  rfl

theorem sumForKeys_genre_inner (g g' : String) (ts : List String) :
    sumForKeys (fun k : String × String => k.2 = g)
      (ts.map (fun w => ((w, g'), 1)))
      = if g' = g then ts.length else 0 := by
  induction ts with
  | nil => simp [sumForKeys_nil]
  | cons w t ih =>
    rw [List.map_cons, sumForKeys_cons, ih]
    by_cases h : g' = g <;> simp [h, Nat.add_comm]

theorem sumForKeys_genre_emit (g : String) (r : Record) :
    sumForKeys (fun k : String × String => k.2 = g) (emitRecord r)
      = (genresOf r).count g * (tokensOf r).length := by
  rw [emitRecord]
  induction genresOf r with
  | nil => simp [sumForKeys_nil]
  | cons g' t ih =>
    rw [List.flatMap_cons, sumForKeys_append, sumForKeys_genre_inner, ih,
      List.count_cons]
    by_cases h : g' = g
    · simp only [h, if_pos, beq_self_eq_true, if_true]
      rw [Nat.add_mul, Nat.one_mul, Nat.add_comm]
    · have hb : ¬((g' == g) = true) := by
        simpa [beq_iff_eq] using h
      simp [h, hb]

theorem sumForKeys_genre_mapper (g : String) (rows : List Record) :
    sumForKeys (fun k : String × String => k.2 = g) (mapper_csv rows)
      = (rows.map (fun r => (genresOf r).count g * (tokensOf r).length)).sum := by
  induction rows with
  | nil => simp [mapper_csv, sumForKeys_nil]
  | cons r t ih =>
    rw [mapper_csv, List.flatMap_cons, sumForKeys_append, sumForKeys_genre_emit]
    rw [mapper_csv] at ih
    rw [ih, List.map_cons, List.sum_cons]

theorem sum_counts_eq_filter (g : String) :
    (rows : List Record) → (∀ r ∈ rows, (genresOf r).Nodup) →
      (rows.map (fun r => (genresOf r).count g * (tokensOf r).length)).sum
        = ((rows.filter (fun r => g ∈ genresOf r)).map
            (fun r => (tokensOf r).length)).sum
  | [] => fun _ => rfl
  | r :: t => fun h => by
    have ih := sum_counts_eq_filter g t (fun r' hr' => h r' (List.mem_cons_of_mem _ hr'))
    rw [List.map_cons, List.sum_cons, ih]
    by_cases hm : g ∈ genresOf r
    · rw [List.count_eq_one_of_mem (h r (List.mem_cons_self _ _)) hm, Nat.one_mul,
        List.filter_cons_of_pos (by simpa using hm), List.map_cons, List.sum_cons]
    · rw [List.count_eq_zero.mpr hm, Nat.zero_mul, Nat.zero_add,
        List.filter_cons_of_neg (by simpa using hm)]

theorem genresOf_ne_nil (r : Record) : genresOf r ≠ [] := by
  intro hc
  rw [genresOf] at hc
  exact splitOnP_ne_nil _ _ (List.map_eq_nil_iff.mp hc)

theorem length_sortDesc (vs : List (String × Nat)) :
    (sortDesc vs).length = vs.length :=
  (List.perm_insertionSort _ _).length_eq

theorem flatMap_ite_replicate {α β : Type} [DecidableEq α] (g : α) (L : List β) :
    (gs : List α) → gs.flatMap (fun g' => if g' = g then L else [])
      = (List.replicate (gs.count g) L).flatten
  | [] => by simp
  | g' :: t => by
    rw [List.flatMap_cons, flatMap_ite_replicate g L t, List.count_cons]
    by_cases h : g' = g
    · rw [if_pos h, if_pos (by simp [h] : (g' == g) = true),
        List.replicate_succ, List.flatten_cons]
    · rw [if_neg h, if_neg (by simp [h] : ¬((g' == g) = true)), List.nil_append,
        Nat.add_zero]

theorem emit_filter_genre (g : String) (ts : List String) (gs : List String)
    (h : gs.count g = 1) :
    (gs.flatMap (fun g' => ts.map (fun w => ((w, g'), (1 : Nat))))).filter
        (fun p => p.1.2 = g)
      = ts.map (fun w => ((w, g), 1)) := by
  rw [List.filter_flatMap]
  have hin : (fun g' => ((ts.map (fun w => ((w, g'), (1 : Nat)))).filter
        (fun p => p.1.2 = g)))
      = fun g' => if g' = g then ts.map (fun w => ((w, g), 1)) else [] := by
    funext g'
    by_cases hg : g' = g
    · subst hg
      rw [if_pos rfl]
      refine List.filter_eq_self.mpr (fun p hp => ?_)
      obtain ⟨w, _, rfl⟩ := List.mem_map.mp hp
      simp
    · rw [if_neg hg]
      refine List.filter_eq_nil_iff.mpr (fun p hp => ?_)
      obtain ⟨w, _, rfl⟩ := List.mem_map.mp hp
      simp [hg]
  rw [hin, flatMap_ite_replicate, h]
  simp

end Job

section Claims

/-- C5: running the pipeline with the Local Aggregator (`combiner_sum`) stage
and running it with that stage omitted yield the same final output, for every
input and every partitioning of it across workers: the combiner is
semantically transparent. -/
theorem combiner_transparency (ws : List (List Record)) (maxW : Option Int) :
    pipeline true ws maxW = pipeline false ws maxW := by
  rw [pipeline, pipeline, round1Out_combiner_eq]

/-- C9: two runs of the full pipeline on identical input, with the same order
of values arriving at each stage (the embedded pipeline is a pure function of
the partitioned input, which fixes every arrival order), yield identical
results. -/
theorem pipeline_deterministic (ws : List (List Record)) (maxW : Option Int)
    (run₁ run₂ : List (String × (String × Nat)))
    (h₁ : run₁ = pipeline true ws maxW) (h₂ : run₂ = pipeline true ws maxW) :
    run₁ = run₂ :=
  h₁.trans h₂.symm

theorem pipeline_deterministic_witness :
    pipeline true [[⟨some "dark water", "Action|Drama"⟩]] (some 2)
      = pipeline true [[⟨some "dark water", "Action|Drama"⟩]] (some 2) :=
  pipeline_deterministic _ (some 2) _ _ rfl rfl

/-- C2: for every corpus and every partitioning of its records across
workers, the sum of `total_count` over all tokens of a category in the Global
Aggregator's output equals the total number of (record, token) occurrences
contributed by the records labeled with that category (each record's genre
list being duplicate-free).  The right-hand side depends only on the
concatenation `ws.flatten` of the partitions, so the total is invariant under
the partitioning. -/
theorem global_sum_partition_invariant (ws : List (List Record)) (g : String)
    (h : ∀ r ∈ ws.flatten, (genresOf r).Nodup) :
    totalForGenre g (round1Out true ws)
      = ((ws.flatten.filter (fun r => g ∈ genresOf r)).map
          (fun r => (tokensOf r).length)).sum := by
  have h1 : totalForGenre g (round1Out true ws)
      = sumForKeys (fun k : String × String => k.2 = g) (shuffled true ws) := by
    rw [round1Out_eq_map, totalForGenre, List.filter_map, List.map_map]
    exact sum_over_keys _ _ _ (nodup_uniqKeys _)
      (fun p hp => (mem_uniqKeys _ _).mpr (List.mem_map_of_mem _ hp))
  rw [h1, sumForKeys_shuffled, shuffled_false_eq, sumForKeys_flatten,
    List.map_map]
  have h2 : (sumForKeys (fun k : String × String => k.2 = g) ∘ mapper_csv)
      = fun w => (w.map (fun r => (genresOf r).count g * (tokensOf r).length)).sum :=
    funext (fun w => sumForKeys_genre_mapper g w)
  rw [h2, ← sum_map_flatten, sum_counts_eq_filter g ws.flatten h]

theorem global_sum_partition_invariant_witness :
    totalForGenre "Action" (round1Out true
        [[⟨some "dark knight rises", "Action"⟩], [⟨some "dark water", "Action|Drama"⟩]])
      = (([⟨some "dark knight rises", "Action"⟩, ⟨some "dark water", "Action|Drama"⟩]
          : List Record).filter (fun r => "Action" ∈ genresOf r) |>.map
            (fun r => (tokensOf r).length)).sum :=
  global_sum_partition_invariant
    [[⟨some "dark knight rises", "Action"⟩], [⟨some "dark water", "Action|Drama"⟩]]
    "Action" (by decide)

/-- C4: for every `(word, genre)` key present in the stream reaching the
round-1 reducer, the round-1 output contains the pair re-keyed by the genre
alone with value `(word, total_count)` exactly when `total_count` is the sum
of all partial counts received for that key. -/
theorem round1_rekey_total_count (ws : List (List Record)) (w g : String)
    (c : Nat) (h : (w, g) ∈ (shuffled true ws).map Prod.fst) :
    ((g, (w, c)) ∈ round1Out true ws
      ↔ c = (valuesFor (w, g) (shuffled true ws)).sum) := by
  rw [round1Out_eq_map]
  constructor
  · intro hm
    obtain ⟨k, _, he⟩ := List.mem_map.mp hm
    obtain ⟨h2, h1, h0⟩ : k.2 = g ∧ k.1 = w ∧ (valuesFor k (shuffled true ws)).sum = c := by
      simpa [Prod.ext_iff] using he
    rw [← h0]
    have hk : k = (w, g) := by
      rw [← h1, ← h2]
    rw [hk]
  · intro hc
    subst hc
    exact List.mem_map.mpr ⟨(w, g), (mem_uniqKeys _ _).mpr h, rfl⟩

theorem round1_rekey_total_count_witness :
    ("G", ("a", 2)) ∈ round1Out true [[⟨some "a a", "G"⟩]] :=
  (round1_rekey_total_count [[⟨some "a a", "G"⟩]] "a" "G" 2 (by decide)).mpr
    (by decide)

theorem count_map_pair (g w : String) (ts : List String) :
    (ts.map (fun word => ((word, g), (1 : Nat)))).count ((w, g), 1)
      = ts.count w := by
  induction ts with
  | nil => rfl
  | cons a t ih =>
    rw [List.map_cons, List.count_cons, List.count_cons, ih]
    congr 1
    by_cases h : a = w
    · subst h
      simp
    · simp [h]

/-- C3: for every record, the Emitter produces exactly one `(token, genre)`
pair with count 1 for each pair of a genre label of the record and a token
occurrence of its normalized title, so its output size is
`|tokens| * |genres|`. -/
theorem mapper_emission_counts (r : Record) :
    (emitRecord r).length = (genresOf r).length * (tokensOf r).length
    ∧ ((emitRecord r).all (fun p => p.2 = 1)) = true
    ∧ ∀ w g : String, (emitRecord r).count ((w, g), 1)
        = (genresOf r).count g * (tokensOf r).count w := by
  refine ⟨?_, ?_, ?_⟩
  · rw [emitRecord, List.length_flatMap]
    have hlen : (List.length ∘ fun genre : String =>
          (tokensOf r).map (fun word => ((word, genre), (1 : Nat))))
        = fun _ => (tokensOf r).length := by
      funext g
      simp
    rw [hlen, sum_map_constant]
  · rw [List.all_eq_true]
    intro p hp
    rw [emitRecord] at hp
    obtain ⟨g, _, hp⟩ := List.mem_flatMap.mp hp
    obtain ⟨w, _, rfl⟩ := List.mem_map.mp hp
    simp
  · intro w g
    rw [emitRecord, List.count_flatMap]
    have hin : (List.count ((w, g), (1 : Nat)) ∘ fun g' =>
          (tokensOf r).map (fun word => ((word, g'), 1)))
        = fun g' => if g = g' then (tokensOf r).count w else 0 := by
      funext g'
      simp only [Function.comp]
      by_cases h : g = g'
      · subst h
        rw [if_pos rfl]
        exact count_map_pair g w (tokensOf r)
      · rw [if_neg h]
        refine List.count_eq_zero.mpr (fun hc => ?_)
        obtain ⟨w', _, he⟩ := List.mem_map.mp hc
        obtain ⟨⟨-, hg⟩, -⟩ : (w' = w ∧ g' = g) ∧ (1 : Nat) = 1 := by
          simpa [Prod.ext_iff] using he
        exact h hg.symm
    rw [hin, sum_map_ite]

/-- C7, counterexample to the claim's second half: a record whose `genres`
field is empty still emits one pair per token, keyed under the empty-string
genre, because splitting on `|` never yields an empty label list. -/
theorem mapper_empty_genres_counterexample :
    emitRecord ⟨some "hello", ""⟩ = [(("hello", ""), 1)]
    ∧ emitRecord ⟨some "hello", ""⟩ ≠ [] :=
  ⟨by decide, by decide⟩

/-- C7, amended: a record whose text field is empty or missing yields zero
emissions (and, the embedding being total, no error); the genre-label list of
a record is never empty — an empty `genres` cell means the single label `""`
— and a record yields zero emissions exactly when its token list is empty. -/
theorem mapper_empty_text_and_labels (r r' : Record)
    (h : r.title = none ∨ r.title = some "") :
    emitRecord r = [] ∧ genresOf r' ≠ []
    ∧ (emitRecord r' = [] ↔ tokensOf r' = []) := by
  have ht : tokensOf r = [] := by
    rcases h with h | h <;> rw [tokensOf, h] <;> decide
  refine ⟨?_, genresOf_ne_nil r', ?_, ?_⟩
  · rw [emitRecord, ht]
    simp
  · intro he
    rw [emitRecord] at he
    obtain ⟨g, hg⟩ := List.exists_mem_of_ne_nil _ (genresOf_ne_nil r')
    exact List.map_eq_nil_iff.mp (List.flatMap_eq_nil_iff.mp he g hg)
  · intro ht'
    rw [emitRecord, ht']
    simp

theorem mapper_empty_text_and_labels_witness :
    emitRecord ⟨none, "A|B"⟩ = [] ∧ genresOf ⟨some "x", "A"⟩ ≠ []
    ∧ (emitRecord ⟨some "x", "A"⟩ = [] ↔ tokensOf ⟨some "x", "A"⟩ = []) :=
  mapper_empty_text_and_labels ⟨none, "A|B"⟩ ⟨some "x", "A"⟩ (Or.inl rfl)

/-- C8: a record carrying genre `g` (once in its label list) contributes to
`g` exactly one count-1 pair per token occurrence — the full token list,
independent of whatever other genres the record carries — and its total
contribution to the tally of `g` is its number of token occurrences, with no
splitting of counts between genres. -/
theorem multi_category_full_contribution (r : Record) (g : String)
    (h : (genresOf r).count g = 1) :
    (emitRecord r).filter (fun p => p.1.2 = g)
        = (tokensOf r).map (fun w => ((w, g), 1))
    ∧ (((emitRecord r).filter (fun p => p.1.2 = g)).map (fun p => p.2)).sum
        = (tokensOf r).length := by
  have h1 : (emitRecord r).filter (fun p => p.1.2 = g)
      = (tokensOf r).map (fun w => ((w, g), 1)) := by
    rw [emitRecord]
    exact emit_filter_genre g (tokensOf r) (genresOf r) h
  refine ⟨h1, ?_⟩
  rw [h1, List.map_map]
  have h2 : ((tokensOf r).map ((fun p : (String × String) × Nat => p.2)
        ∘ (fun w => ((w, g), 1)))).sum = (tokensOf r).length * 1 :=
    sum_map_constant _ 1
  simpa using h2

theorem multi_category_full_contribution_witness :
    (emitRecord ⟨some "dark water", "Action|Drama"⟩).filter
        (fun p => p.1.2 = "Drama")
      = (tokensOf ⟨some "dark water", "Action|Drama"⟩).map
          (fun w => ((w, "Drama"), 1))
    ∧ (((emitRecord ⟨some "dark water", "Action|Drama"⟩).filter
          (fun p => p.1.2 = "Drama")).map (fun p => p.2)).sum
        = (tokensOf ⟨some "dark water", "Action|Drama"⟩).length :=
  multi_category_full_contribution ⟨some "dark water", "Action|Drama"⟩ "Drama"
    (by decide)

/-- C1: for a configured non-negative `maxWords = k`, the Top-K Selector
emits pairs ordered by count descending, all re-keyed by the input genre,
emits exactly `min k n` of them (so at most `k`), and when the genre has at
most `k` pairs it emits all of them, fully ranked (a permutation of its whole
input, in sorted order). -/
theorem topk_sorted_and_bounded (k : Int) (key : String)
    (vs : List (String × Nat)) (hk : 0 ≤ k) :
    ((reducer_sort (some k) key vs).map Prod.snd).Sorted countGe
    ∧ ((reducer_sort (some k) key vs).all (fun e => e.1 = key)) = true
    ∧ (reducer_sort (some k) key vs).length = min k.toNat vs.length
    ∧ (vs.length ≤ k.toNat →
        ((reducer_sort (some k) key vs).map Prod.snd).Perm vs) := by
  have hsl : pySlice (some k) (sortDesc vs) = (sortDesc vs).take k.toNat := by
    rw [pySlice, if_pos hk]
  have hmap : (reducer_sort (some k) key vs).map Prod.snd
      = (sortDesc vs).take k.toNat := by
    rw [reducer_sort, hsl, List.map_map]
    exact List.map_id' _
  refine ⟨?_, ?_, ?_, ?_⟩
  · rw [hmap]
    exact List.Pairwise.sublist (List.take_sublist _ _)
      (List.sorted_insertionSort countGe vs)
  · rw [List.all_eq_true]
    intro e he
    rw [reducer_sort] at he
    obtain ⟨wc, _, rfl⟩ := List.mem_map.mp he
    simp
  · rw [reducer_sort, List.length_map, hsl, List.length_take, length_sortDesc]
  · intro hlen
    rw [hmap, List.take_of_length_le (by rw [length_sortDesc]; exact hlen)]
    exact List.perm_insertionSort countGe vs

theorem topk_sorted_and_bounded_witness :
    ((reducer_sort (some 3) "g" [("a", 1), ("b", 3)]).map Prod.snd).Sorted countGe
    ∧ ((reducer_sort (some 3) "g" [("a", 1), ("b", 3)]).all
        (fun e => e.1 = "g")) = true
    ∧ (reducer_sort (some 3) "g" [("a", 1), ("b", 3)]).length
        = min (Int.toNat 3) ([("a", 1), ("b", 3)] : List (String × Nat)).length
    ∧ ((reducer_sort (some 3) "g" [("a", 1), ("b", 3)]).map Prod.snd).Perm
        [("a", 1), ("b", 3)] := by
  have T := topk_sorted_and_bounded 3 "g" [("a", 1), ("b", 3)] (by decide)
  exact ⟨T.1, T.2.1, T.2.2.1, T.2.2.2 (by decide)⟩

/-- C6, counterexample: with `maxWords = -1` the selector does not emit
nothing — Python's `lst[:-1]` drops only the last element, so it emits the
top pair here. -/
theorem topk_negative_counterexample :
    reducer_sort (some (-1)) "g" [("a", 2), ("b", 1)] = [("g", ("a", 2))]
    ∧ reducer_sort (some (-1)) "g" [("a", 2), ("b", 1)] ≠ [] :=
  ⟨by decide, by decide⟩

/-- C6, amended: with `maxWords = 0` the selector emits nothing; with a
negative `maxWords = k` it emits the descending-sorted list with its last
`|k|` entries dropped (hence nothing only when the genre has at most `|k|`
pairs). -/
theorem topk_nonpositive_behavior (k : Int) (key : String)
    (vs : List (String × Nat)) :
    reducer_sort (some 0) key vs = []
    ∧ (k < 0 → reducer_sort (some k) key vs
        = ((sortDesc vs).take (vs.length - (-k).toNat)).map
            (fun wc => (key, wc))) := by
  constructor
  · rw [reducer_sort, pySlice, if_pos (le_refl (0 : Int))]
    simp
  · intro hneg
    rw [reducer_sort, pySlice, if_neg (by omega), length_sortDesc]

theorem topk_nonpositive_behavior_witness :
    reducer_sort (some 0) "g" [("a", 5), ("b", 4), ("c", 3)] = []
    ∧ reducer_sort (some (-2)) "g" [("a", 5), ("b", 4), ("c", 3)]
        = ((sortDesc [("a", 5), ("b", 4), ("c", 3)]).take
            (([("a", 5), ("b", 4), ("c", 3)] : List (String × Nat)).length
              - (-(-2 : Int)).toNat)).map (fun wc => ("g", wc)) := by
  have T := topk_nonpositive_behavior (-2) "g" [("a", 5), ("b", 4), ("c", 3)]
  exact ⟨T.1, T.2 (by decide)⟩

/-- C10: when `--maxWords` is not supplied its value is `None`, and the
selector emits every `(word, count)` pair of the genre, sorted by count
descending with no truncation: the emitted values are exactly the
descending-sorted input, a permutation of the whole input. -/
theorem topk_no_truncation_when_unset (key : String)
    (vs : List (String × Nat)) :
    reducer_sort maxWordsWhenUnsupplied key vs
        = (sortDesc vs).map (fun wc => (key, wc))
    ∧ ((reducer_sort maxWordsWhenUnsupplied key vs).map Prod.snd).Sorted countGe
    ∧ ((reducer_sort maxWordsWhenUnsupplied key vs).map Prod.snd).Perm vs := by
  have h1 : reducer_sort maxWordsWhenUnsupplied key vs
      = (sortDesc vs).map (fun wc => (key, wc)) := rfl
  refine ⟨h1, ?_, ?_⟩
  · rw [h1, List.map_map]
    have h2 : ((sortDesc vs).map (Prod.snd ∘ (fun wc => (key, wc))))
        = sortDesc vs := List.map_id' _
    rw [h2]
    exact List.sorted_insertionSort countGe vs
  · rw [h1, List.map_map]
    have h2 : ((sortDesc vs).map (Prod.snd ∘ (fun wc => (key, wc))))
        = sortDesc vs := List.map_id' _
    rw [h2]
    exact List.perm_insertionSort countGe vs

end Claims

end MapReduceJobs
